import Mathlib

/-!
Verification of the `ocelli` entropy-harvesting core.

This file shallowly embeds the Rust sources:
  * `src/core.rs` — the canonical `Ocelli` implementation
    (`bits_to_bytes`, `chop_and_tack`, `pick_and_flip`, `shannon`,
    `whiten`, `is_covered`);
  * `src/lib.rs`  — the FFI surface (`extern` wrappers built on
    `slice::from_raw_parts`) together with the older in-crate variant
    of `chop_and_tack` that they call.

Conventions of the embedding:
  * a `&[u8]` buffer is a `List Nat` whose elements are meant to be
    `< 256`; `u8` arithmetic that can wrap is modelled with explicit
    `% 256` (release-profile wrapping semantics);
  * Rust operations that panic at run time (`usize` division by zero,
    `Iterator::step_by` with step 0) are modelled with `Except.error`;
  * `f64` is modelled by `ℝ`; the `HashMap`/`HashSet` of `shannon` and
    `is_covered` become `List.toFinset` / `List.dedup`;
  * a raw FFI pointer is an `Option (List Nat)`: `some buf` is a valid
    pointer whose paired length argument describes `buf`, `none` is a
    null or otherwise invalid pointer; a `none` result of a wrapper
    marks that the code dereferenced invalid memory (undefined
    behaviour), which is the faithful reading of an unconditional
    `slice::from_raw_parts`.
-/

namespace Ocelli

/-- `Ocelli::bits_to_bytes` (core.rs lines 6–16): `bits.chunks(8)` keeps
only full chunks of 8 and folds each with `(byte << 1) | bit` on `u8`. -/
def bits_to_bytes : List Nat → List Nat
  | b0 :: b1 :: b2 :: b3 :: b4 :: b5 :: b6 :: b7 :: rest =>
      [b0, b1, b2, b3, b4, b5, b6, b7].foldl
        (fun byte bit => ((byte <<< 1) % 256) ||| bit) 0 :: bits_to_bytes rest
  | _ => []

/-- `(a..b).step_by(s)` for `s > 0`: the indices `a, a+s, …` below `b`.
(For `s = 0` Rust's `step_by` panics; `chop_and_tack` models that case
with an explicit `Except.error` before this function is consulted.) -/
def stepRange (start stop step : Nat) : List Nat :=
  (List.range ((stop - start + step - 1) / step)).map (fun i => start + i * step)

/-- The branchless difference bit of core.rs line 52,
`(c > p) as u8 - (c < p) as u8`, with `u8` wrapping subtraction
(release profile): `1` when `c > p`, `0` when `c = p`, `255` when
`c < p`.  (In a debug build the `c < p` case would panic on overflow.) -/
def diffBit (c p : Nat) : Nat :=
  ((if p < c then 1 else 0) + 256 - (if c < p then 1 else 0)) % 256

/-- The sampled interior grid of `chop_and_tack` for a `current` buffer
of length `len`: rows `100 .. len/width - 100`, within each row the
columns `row*width + 100, +stride, … < (row+1)*width - 100`, keeping
only indices `< len` (core.rs lines 41–48). -/
def gridIndices (len width minimum_distance : Nat) : List Nat :=
  (List.range' 100 (len / width - 200)).flatMap (fun row =>
    (stepRange (row * width + 100) ((row + 1) * width - 100) minimum_distance).filter
      (fun idx => decide (idx < len)))

/-- `Ocelli::chop_and_tack` (core.rs lines 18–59).  `height` is computed
as `current.len() / width` *before* the geometry guard, so `width = 0`
hits Rust's division-by-zero panic, modelled as `Except.error`; likewise
`step_by(0)` (reached only with valid geometry) panics.  Valid geometry
(`width > 200`, `height > 200`, equal lengths) yields
`Some(bits_to_bytes(entropy))`; invalid geometry yields `None`. -/
def chop_and_tack (current previous : List Nat) (width minimum_distance : Nat) :
    Except String (Option (List Nat)) :=
  if width = 0 then Except.error "attempt to divide by zero"
  else
    let height := current.length / width
    if width ≤ 200 ∨ height ≤ 200 ∨ current.length ≠ previous.length then
      Except.ok none
    else if minimum_distance = 0 then
      Except.error "step_by called with step 0"
    else
      let entropy :=
        ((gridIndices current.length width minimum_distance).map
            (fun idx => diffBit (current.getD idx 0) (previous.getD idx 0))).filter
          (fun bit => decide (bit ≤ 1))
      Except.ok (some (bits_to_bytes entropy))

/-- `Ocelli::pick_and_flip` (core.rs lines 61–78): for each pixel in the
inclusive range `low..=high`, take its least significant bit, XOR it
with 1 on even frame indices, and pack the bits into bytes. -/
def pick_and_flip (data : List Nat) (low high : Nat) (current_frame_index : Nat) : List Nat :=
  bits_to_bytes (data.filterMap (fun pixel =>
    if low ≤ pixel ∧ pixel ≤ high then
      some (if current_frame_index % 2 = 0 then (pixel &&& 1) ^^^ 1 else pixel &&& 1)
    else none))

/-- `Ocelli::shannon` (core.rs lines 80–96), with `f64` modelled by `ℝ`:
`0` for empty input, otherwise `-Σ (count/n)·log2(count/n)` over the
distinct byte values of the buffer (the key set of the frequency map). -/
noncomputable def shannon (data : List Nat) : ℝ :=
  if data.length = 0 then 0
  else ∑ b ∈ data.toFinset,
    (0 - ((data.count b : ℝ) / (data.length : ℝ)) *
      Real.logb 2 ((data.count b : ℝ) / (data.length : ℝ)))

/-- The running state of `Ocelli::whiten`: output bytes so far, the
byte being accumulated, the number of bits accumulated in it. -/
structure WhitenState where
  out : List Nat
  cur : Nat
  cnt : Nat
deriving Repr, DecidableEq

/-- One von Neumann pair step of `Ocelli::whiten` (core.rs lines
110–119): `(0,1)` appends bit 0, `(1,0)` appends bit 1, anything else
is discarded; afterwards a full byte (8 bits) is flushed to the output. -/
def pushPair (s : WhitenState) (b1 b2 : Nat) : WhitenState :=
  let s1 : WhitenState :=
    if b1 = 0 ∧ b2 = 1 then ⟨s.out, ((s.cur <<< 1) % 256) ||| 0, s.cnt + 1⟩
    else if b1 = 1 ∧ b2 = 0 then ⟨s.out, ((s.cur <<< 1) % 256) ||| 1, s.cnt + 1⟩
    else s
  if s1.cnt = 8 then ⟨s1.out ++ [s1.cur], 0, 0⟩ else s1

/-- The inner loop of `Ocelli::whiten` over one input byte: the bit
pairs at offsets `i ∈ {0,2,4,6}`, MSB first. -/
def whitenByte (s : WhitenState) (byte : Nat) : WhitenState :=
  [0, 2, 4, 6].foldl
    (fun t i => pushPair t ((byte >>> (7 - i)) &&& 1) ((byte >>> (6 - i)) &&& 1)) s

/-- `Ocelli::whiten` (core.rs lines 98–123): von Neumann whitening over
the MSB-first bitstream of the input; the partially filled trailing
byte in the state is dropped. -/
def whiten (entropy : List Nat) : List Nat :=
  (entropy.foldl whitenByte ⟨[], 0, 0⟩).out

/-- `Ocelli::is_covered` (core.rs lines 125–134): true iff the number of
distinct grayscale values is below the threshold. -/
def is_covered (grayscale : List Nat) (threshold : Nat) : Bool :=
  grayscale.dedup.length < threshold

/-- The MSB-first bits of one byte, as read by the spec's "contiguous
MSB-first bitstream". -/
def bitsOfByte (byte : Nat) : List Nat :=
  [(byte >>> 7) &&& 1, (byte >>> 6) &&& 1, (byte >>> 5) &&& 1, (byte >>> 4) &&& 1,
   (byte >>> 3) &&& 1, (byte >>> 2) &&& 1, (byte >>> 1) &&& 1, (byte >>> 0) &&& 1]

/-- A byte buffer read as a contiguous MSB-first bitstream. -/
def toBits (data : List Nat) : List Nat := data.flatMap bitsOfByte

/-- One von Neumann pair of the spec: `(0,1)` emits output bit 0,
`(1,0)` emits output bit 1, `(0,0)` and `(1,1)` emit nothing. -/
def vnPair (b1 b2 : Nat) : List Nat :=
  if b1 = 0 ∧ b2 = 1 then [0] else if b1 = 1 ∧ b2 = 0 then [1] else []

/-- The spec's pairwise processing of a bitstream in disjoint
consecutive pairs; a trailing unpaired bit is ignored. -/
def vnPairs : List Nat → List Nat
  | b1 :: b2 :: rest => vnPair b1 b2 ++ vnPairs rest
  | _ => []

/-- The specification-level description of von Neumann whitening
(spec §4.2): read the buffer as an MSB-first bitstream, process
disjoint consecutive pairs, pack the emitted bits MSB-first into
bytes, and drop a trailing incomplete byte. -/
def whiten_spec (data : List Nat) : List Nat := bits_to_bytes (vnPairs (toBits data))

/-- The pure bit-packing step that `pushPair` factors through: append
one bit to the accumulator and flush a completed byte. -/
def packStep (s : WhitenState) (bit : Nat) : WhitenState :=
  let cur := ((s.cur <<< 1) % 256) ||| bit
  if s.cnt + 1 = 8 then ⟨s.out ++ [cur], 0, 0⟩ else ⟨s.out, cur, s.cnt + 1⟩

end Ocelli

namespace Ocelli

theorem getD_replicate (n a d i : Nat) :
    (List.replicate n a).getD i d = if i < n then a else d := by
  induction n generalizing i with
  | zero => simp [List.getD]
  | succ m ih =>
      cases i with
      | zero => simp [List.replicate_succ]
      | succ j => simpa [List.replicate_succ, List.getD_cons_succ] using ih j

theorem bits_to_bytes_short (l : List Nat) (h : l.length < 8) : bits_to_bytes l = [] := by
  rcases l with _ | ⟨b0, _ | ⟨b1, _ | ⟨b2, _ | ⟨b3, _ | ⟨b4, _ | ⟨b5, _ | ⟨b6, _ | ⟨b7, t⟩⟩⟩⟩⟩⟩⟩⟩ <;>
    first
      | rfl
      | (exfalso; simp only [List.length_cons] at h; omega)

theorem bits_to_bytes_cons8 (b0 b1 b2 b3 b4 b5 b6 b7 : Nat) (rest : List Nat) :
    bits_to_bytes (b0 :: b1 :: b2 :: b3 :: b4 :: b5 :: b6 :: b7 :: rest) =
      [b0, b1, b2, b3, b4, b5, b6, b7].foldl
        (fun byte bit => ((byte <<< 1) % 256) ||| bit) 0 :: bits_to_bytes rest := rfl

theorem length_bits_to_bytes (l : List Nat) : (bits_to_bytes l).length = l.length / 8 := by
  induction l using bits_to_bytes.induct with
  | case1 b0 b1 b2 b3 b4 b5 b6 b7 rest ih =>
      rw [bits_to_bytes_cons8]
      simp only [List.length_cons, ih]
      omega
  | case2 l h1 =>
      have hlen : l.length < 8 := by
        rcases l with _ | ⟨b0, _ | ⟨b1, _ | ⟨b2, _ | ⟨b3, _ | ⟨b4, _ | ⟨b5, _ | ⟨b6, _ | ⟨b7, t⟩⟩⟩⟩⟩⟩⟩⟩ <;>
          first
            | exact (h1 b0 b1 b2 b3 b4 b5 b6 b7 t rfl).elim
            | simp
      rw [bits_to_bytes_short l hlen, Nat.div_eq_of_lt hlen]
      rfl

theorem bits_to_bytes_replicate_one (m : Nat) :
    bits_to_bytes (List.replicate m 1) = List.replicate (m / 8) 255 := by
  induction m using Nat.strong_induction_on with
  | _ m ih =>
      by_cases h : m < 8
      · rw [bits_to_bytes_short _ (by simpa using h), Nat.div_eq_of_lt h]
        rfl
      · obtain ⟨k, rfl⟩ : ∃ k, m = k + 8 := ⟨m - 8, by omega⟩
        have : List.replicate (k + 8) 1 =
            1 :: 1 :: 1 :: 1 :: 1 :: 1 :: 1 :: 1 :: List.replicate k (1 : Nat) := by
          simp [List.replicate_succ, Nat.add_comm k 8, List.replicate_add]
        rw [this, bits_to_bytes_cons8, ih k (by omega)]
        have h8 : (k + 8) / 8 = k / 8 + 1 := by omega
        rw [h8, List.replicate_succ]
        rfl

theorem bits_to_bytes_replicate_zero (m : Nat) :
    bits_to_bytes (List.replicate m 0) = List.replicate (m / 8) 0 := by
  induction m using Nat.strong_induction_on with
  | _ m ih =>
      by_cases h : m < 8
      · rw [bits_to_bytes_short _ (by simpa using h), Nat.div_eq_of_lt h]
        rfl
      · obtain ⟨k, rfl⟩ : ∃ k, m = k + 8 := ⟨m - 8, by omega⟩
        have : List.replicate (k + 8) 0 =
            0 :: 0 :: 0 :: 0 :: 0 :: 0 :: 0 :: 0 :: List.replicate k (0 : Nat) := by
          simp [List.replicate_succ, Nat.add_comm k 8, List.replicate_add]
        rw [this, bits_to_bytes_cons8, ih k (by omega)]
        have h8 : (k + 8) / 8 = k / 8 + 1 := by omega
        rw [h8, List.replicate_succ]
        rfl

/-- The concrete 209×201 geometry used below samples exactly the nine
interior indices 21000–21008 (one row, stride 1). -/
theorem gridIndices_small :
    gridIndices 42009 209 1 =
      [21000, 21001, 21002, 21003, 21004, 21005, 21006, 21007, 21008] := by decide

/-- Evaluation of `chop_and_tack` on a 209×201 frame pair with
`current[i] = 0 < 1 = previous[i]` everywhere: every sampled comparison
has `c < p`, the wrapped difference is 255, and the `bit <= 1` filter
drops it, so no bits at all are collected. -/
theorem chop_eval_lt :
    chop_and_tack (List.replicate 42009 0) (List.replicate 42009 1) 209 1 =
      Except.ok (some []) := by
  simp only [chop_and_tack, List.length_replicate, gridIndices_small]
  simp only [getD_replicate]
  norm_num [diffBit, bits_to_bytes]

/-- Evaluation of `chop_and_tack` on identical 209×201 frames: every
sampled comparison has `c = p`, the difference expression yields 0,
which passes the `bit <= 1` filter, so nine 0-bits are collected and
packed into the single byte `0x00`. -/
theorem chop_eval_eq :
    chop_and_tack (List.replicate 42009 7) (List.replicate 42009 7) 209 1 =
      Except.ok (some [0]) := by
  simp only [chop_and_tack, List.length_replicate, gridIndices_small]
  simp only [getD_replicate]
  norm_num [diffBit, bits_to_bytes]

end Ocelli

namespace Ocelli

/-- C1: the claim says the grid comparison emits bit 1 when
`current[idx] > previous[idx]`, bit 0 when `current[idx] < previous[idx]`
and nothing when they are equal.  The code (core.rs line 52) computes
`(c > p) as u8 - (c < p) as u8`, which wraps to 255 for `c < p` (then
discarded by the `bit <= 1` filter) and yields 0 for `c = p` (kept).
So the code emits 1 for greater, 0 for *equal*, and nothing for
*lesser* — contradicting the claim and the code's own line comment.
First conjunct: all-lesser frames yield no bits (claim: nine 0-bits,
one byte `0x00`).  Second conjunct: identical frames yield nine 0-bits
and the byte `0x00` (claim: no bits at all). -/
theorem chop_and_tack_comparison_divergence :
    chop_and_tack (List.replicate 42009 0) (List.replicate 42009 1) 209 1 =
        Except.ok (some []) ∧
      chop_and_tack (List.replicate 42009 7) (List.replicate 42009 7) 209 1 =
        Except.ok (some [0]) :=
  ⟨chop_eval_lt, chop_eval_eq⟩

/-- C2 counterexample: `width = 0` fails the precondition (`width` not
`> 200`), but the code computes `height = current.len() / width`
*before* the geometry guard (core.rs line 29), so the call panics with
a division by zero instead of returning no chunk. -/
theorem chop_and_tack_width_zero_panics :
    chop_and_tack [0, 0, 0] [0, 0, 0] 0 30 = Except.error "attempt to divide by zero" := rfl

/-- C2 (amended): for every input violating the geometry precondition
(`width ≤ 200`, or derived height `≤ 200`, or length mismatch),
*provided `width ≠ 0`*, `chop_and_tack` produces no chunk (`none`) and
does not panic; with `width = 0` the `len/width` division panics. -/
theorem chop_and_tack_invalid_geometry (current previous : List Nat) (width d : Nat)
    (hw : width ≠ 0)
    (h : width ≤ 200 ∨ current.length / width ≤ 200 ∨ current.length ≠ previous.length) :
    chop_and_tack current previous width d = Except.ok none := by
  simp only [chop_and_tack, if_neg hw, if_pos h]

/-- C2 witness: `width = 150` (the spec's own test geometry) with a
length-mismatched pair yields no chunk. -/
theorem chop_and_tack_invalid_geometry_witness :
    chop_and_tack [1, 2, 3] [1, 2] 150 30 = Except.ok none :=
  chop_and_tack_invalid_geometry [1, 2, 3] [1, 2] 150 30 (by decide) (by decide)

/-- C4 counterexample: with `low = high = 5` (so `low ≥ high`) the
inclusive range `low..=high` still contains the pixel value 5, so eight
pixels of value 5 at odd frame parity yield the byte `0xFF`, not the
empty chunk the claim requires. -/
theorem pick_and_flip_low_eq_high_not_empty :
    pick_and_flip (List.replicate 8 5) 5 5 1 = [255] ∧
      pick_and_flip (List.replicate 8 5) 5 5 1 ≠ [] := by
  constructor <;> decide

/-- C4 (amended): whenever `low > high` (strictly), the inclusive range
`low..=high` is empty, no pixel passes the filter, and `pick_and_flip`
yields the empty chunk; for `low = high` pixels equal to `low` are
still sampled. -/
theorem pick_and_flip_empty_of_high_lt_low (data : List Nat) (low high idx : Nat)
    (h : high < low) : pick_and_flip data low high idx = [] := by
  have hnil : data.filterMap (fun pixel =>
      if low ≤ pixel ∧ pixel ≤ high then
        some (if idx % 2 = 0 then (pixel &&& 1) ^^^ 1 else pixel &&& 1)
      else none) = [] := by
    rw [List.filterMap_eq_nil_iff]
    intro pixel _
    rw [if_neg]
    omega
  rw [pick_and_flip, hnil]
  rfl

/-- C4 witness: a concrete inverted range yields the empty chunk. -/
theorem pick_and_flip_empty_witness : pick_and_flip [0, 1, 2] 5 4 0 = [] :=
  pick_and_flip_empty_of_high_lt_low [0, 1, 2] 5 4 0 (by decide)

theorem pushPair_eq_foldl (s : WhitenState) (b1 b2 : Nat) (h : s.cnt ≠ 8) :
    pushPair s b1 b2 = (vnPair b1 b2).foldl packStep s := by
  by_cases h1 : b1 = 0 ∧ b2 = 1
  · simp [pushPair, vnPair, packStep, h1]
  · by_cases h2 : b1 = 1 ∧ b2 = 0
    · simp [pushPair, vnPair, packStep, h1, h2]
    · simp [pushPair, vnPair, h1, h2, h]

theorem packStep_cnt_lt (s : WhitenState) (b : Nat) (h : s.cnt < 8) :
    (packStep s b).cnt < 8 := by
  by_cases h8 : s.cnt + 1 = 8
  · simp [packStep, h8]
  · simp [packStep, h8]
    omega

theorem pushPair_cnt_lt (s : WhitenState) (b1 b2 : Nat) (h : s.cnt < 8) :
    (pushPair s b1 b2).cnt < 8 := by
  rw [pushPair_eq_foldl s b1 b2 (by omega), vnPair]
  by_cases h1 : b1 = 0 ∧ b2 = 1
  · simpa [h1] using packStep_cnt_lt s 0 h
  · by_cases h2 : b1 = 1 ∧ b2 = 0
    · simpa [h1, h2] using packStep_cnt_lt s 1 h
    · simpa [h1, h2] using h

theorem whitenByte_cnt_lt (s : WhitenState) (byte : Nat) (h : s.cnt < 8) :
    (whitenByte s byte).cnt < 8 := by
  simp only [whitenByte, List.foldl_cons, List.foldl_nil]
  exact pushPair_cnt_lt _ _ _ (pushPair_cnt_lt _ _ _ (pushPair_cnt_lt _ _ _
    (pushPair_cnt_lt _ _ _ h)))

theorem foldl_pushPair_eq {α : Type} (f g : α → Nat) :
    ∀ (l : List α) (s : WhitenState), s.cnt < 8 →
      l.foldl (fun t x => pushPair t (f x) (g x)) s =
        (l.flatMap (fun x => vnPair (f x) (g x))).foldl packStep s
  | [], _, _ => rfl
  | a :: t, s, h => by
      rw [List.foldl_cons, List.flatMap_cons, List.foldl_append,
        ← pushPair_eq_foldl s (f a) (g a) (by omega)]
      exact foldl_pushPair_eq f g t _ (pushPair_cnt_lt s (f a) (g a) h)

theorem whitenByte_eq (s : WhitenState) (byte : Nat) (h : s.cnt < 8) :
    whitenByte s byte = (vnPairs (bitsOfByte byte)).foldl packStep s := by
  have key := foldl_pushPair_eq (fun i => (byte >>> (7 - i)) &&& 1)
    (fun i => (byte >>> (6 - i)) &&& 1) [0, 2, 4, 6] s h
  have hlist : ([0, 2, 4, 6].flatMap
      (fun i => vnPair ((byte >>> (7 - i)) &&& 1) ((byte >>> (6 - i)) &&& 1))) =
        vnPairs (bitsOfByte byte) := by
    simp only [List.flatMap_cons, List.flatMap_nil, bitsOfByte, vnPairs, List.append_nil]
  rw [whitenByte]
  rw [key, hlist]

theorem foldl_flatMap {α β γ : Type} (f : α → List β) (g : γ → β → γ) :
    ∀ (l : List α) (s : γ),
      (l.flatMap f).foldl g s = l.foldl (fun t x => (f x).foldl g t) s
  | [], _ => rfl
  | a :: t, s => by
      rw [List.flatMap_cons, List.foldl_append, List.foldl_cons]
      exact foldl_flatMap f g t _

theorem vnPairs_append : ∀ (l1 l2 : List Nat), l1.length % 2 = 0 →
    vnPairs (l1 ++ l2) = vnPairs l1 ++ vnPairs l2
  | [], l2, _ => by simp [vnPairs]
  | [a], _, h => by simp at h
  | a :: b :: t, l2, h => by
      simp only [List.cons_append, vnPairs, List.append_eq]
      rw [vnPairs_append t l2 (by simp only [List.length_cons] at h; omega), List.append_assoc]

theorem vnPairs_toBits (data : List Nat) :
    vnPairs (toBits data) = data.flatMap (fun b => vnPairs (bitsOfByte b)) := by
  induction data with
  | nil => rfl
  | cons a t ih =>
      rw [toBits, List.flatMap_cons, ← toBits,
        vnPairs_append _ _ (by simp [bitsOfByte]), ih, List.flatMap_cons]

theorem foldl_packStep_small : ∀ (bits : List Nat) (s : WhitenState),
    s.cnt + bits.length < 8 → (bits.foldl packStep s).out = s.out
  | [], _, _ => rfl
  | b :: t, s, h => by
      have hne : ¬ s.cnt + 1 = 8 := by simp at h; omega
      rw [List.foldl_cons]
      have hs : packStep s b = ⟨s.out, ((s.cur <<< 1) % 256) ||| b, s.cnt + 1⟩ := by
        simp [packStep, hne]
      rw [hs]
      exact foldl_packStep_small t _ (by simp at h ⊢; omega)

theorem foldl_packStep_out (bits out : List Nat) :
    (bits.foldl packStep ⟨out, 0, 0⟩).out = out ++ bits_to_bytes bits := by
  induction bits using bits_to_bytes.induct generalizing out with
  | case1 b0 b1 b2 b3 b4 b5 b6 b7 rest ih =>
      rw [bits_to_bytes_cons8]
      simp only [List.foldl_cons, List.foldl_nil, packStep]
      norm_num
      rw [ih]
      simp
  | case2 l h1 =>
      have hlen : l.length < 8 := by
        rcases l with _ | ⟨b0, _ | ⟨b1, _ | ⟨b2, _ | ⟨b3, _ | ⟨b4, _ | ⟨b5, _ | ⟨b6, _ | ⟨b7, t⟩⟩⟩⟩⟩⟩⟩⟩ <;>
          first
            | exact (h1 b0 b1 b2 b3 b4 b5 b6 b7 t rfl).elim
            | simp
      rw [bits_to_bytes_short l hlen, foldl_packStep_small l _ (by simpa using hlen)]
      simp

theorem foldl_whitenByte_eq : ∀ (data : List Nat) (s : WhitenState), s.cnt < 8 →
    data.foldl whitenByte s =
      (data.flatMap (fun b => vnPairs (bitsOfByte b))).foldl packStep s
  | [], _, _ => rfl
  | a :: t, s, h => by
      rw [List.foldl_cons, List.flatMap_cons, List.foldl_append, ← whitenByte_eq s a h]
      exact foldl_whitenByte_eq t _ (whitenByte_cnt_lt s a h)

/-- The stateful loop of core.rs `whiten` computes exactly the spec's
pair-by-pair description. -/
theorem whiten_eq_spec (data : List Nat) : whiten data = whiten_spec data := by
  rw [whiten, foldl_whitenByte_eq data ⟨[], 0, 0⟩ (by norm_num), ← vnPairs_toBits,
    foldl_packStep_out]
  rfl

theorem whiten_replicate_zero (n : Nat) : whiten (List.replicate n 0) = [] := by
  have key : ∀ m, (List.replicate m 0).foldl whitenByte ⟨[], 0, 0⟩ = ⟨[], 0, 0⟩ := by
    intro m
    induction m with
    | zero => rfl
    | succ k ih =>
        rw [List.replicate_succ, List.foldl_cons,
          show whitenByte ⟨[], 0, 0⟩ 0 = ⟨[], 0, 0⟩ from rfl, ih]
  rw [whiten, key]

theorem whitenByte_85_even (out : List Nat) :
    whitenByte ⟨out, 0, 0⟩ 85 = ⟨out, 0, 4⟩ := by
  simp only [whitenByte, List.foldl_cons, List.foldl_nil,
    show (85:Nat) >>> (7 - 0) &&& 1 = 0 from rfl, show (85:Nat) >>> (6 - 0) &&& 1 = 1 from rfl,
    show (85:Nat) >>> (7 - 2) &&& 1 = 0 from rfl, show (85:Nat) >>> (6 - 2) &&& 1 = 1 from rfl,
    show (85:Nat) >>> (7 - 4) &&& 1 = 0 from rfl, show (85:Nat) >>> (6 - 4) &&& 1 = 1 from rfl,
    show (85:Nat) >>> (7 - 6) &&& 1 = 0 from rfl, show (85:Nat) >>> (6 - 6) &&& 1 = 1 from rfl]
  simp [pushPair]

theorem whitenByte_85_odd (out : List Nat) :
    whitenByte ⟨out, 0, 4⟩ 85 = ⟨out ++ [0], 0, 0⟩ := by
  simp only [whitenByte, List.foldl_cons, List.foldl_nil,
    show (85:Nat) >>> (7 - 0) &&& 1 = 0 from rfl, show (85:Nat) >>> (6 - 0) &&& 1 = 1 from rfl,
    show (85:Nat) >>> (7 - 2) &&& 1 = 0 from rfl, show (85:Nat) >>> (6 - 2) &&& 1 = 1 from rfl,
    show (85:Nat) >>> (7 - 4) &&& 1 = 0 from rfl, show (85:Nat) >>> (6 - 4) &&& 1 = 1 from rfl,
    show (85:Nat) >>> (7 - 6) &&& 1 = 0 from rfl, show (85:Nat) >>> (6 - 6) &&& 1 = 1 from rfl]
  simp [pushPair]

theorem foldl_whitenByte_85 : ∀ (m : Nat) (out : List Nat),
    (List.replicate (2 * m) 85).foldl whitenByte ⟨out, 0, 0⟩ =
      ⟨out ++ List.replicate m 0, 0, 0⟩
  | 0, out => by simp
  | m + 1, out => by
      have h2 : 2 * (m + 1) = 2 + 2 * m := by omega
      rw [h2, List.replicate_add, List.foldl_append,
        show List.replicate 2 (85 : Nat) = [85, 85] from rfl]
      simp only [List.foldl_cons, List.foldl_nil, whitenByte_85_even, whitenByte_85_odd]
      rw [foldl_whitenByte_85 m (out ++ [0])]
      simp [List.replicate_succ]

end Ocelli

namespace Ocelli

/-- C3 counterexample: two `0x55` bytes are the bit-pairs `(0,1)` eight
times; the von Neumann rule `(0,1) ⇒ 0` (core.rs line 111) emits eight
0-bits, so the output is the single byte `0x00`, not the all-ones byte
`0xFF` the claim requires. -/
theorem whiten_55_not_all_ones :
    whiten (List.replicate 2 85) = [0] ∧ whiten (List.replicate 2 85) ≠ [255] := by
  constructor <;> decide

/-- C3 (amended): `whiten` on `n` bytes `0x55` consumes every input
pair and emits one output bit per pair, but each emitted bit is 0 (the
pair `(0,1)` emits 0), so the output is `⌊4n/8⌋ = n/2` bytes all equal
to `0x00`. -/
theorem whiten_replicate_85 (n : Nat) :
    whiten (List.replicate n 85) = List.replicate (n / 2) 0 := by
  obtain ⟨m, r, hr, rfl⟩ : ∃ m r, r < 2 ∧ n = 2 * m + r :=
    ⟨n / 2, n % 2, Nat.mod_lt n (by norm_num), by omega⟩
  interval_cases r
  · rw [Nat.add_zero, whiten, foldl_whitenByte_85 m []]
    simp
  · rw [List.replicate_add, whiten, List.foldl_append, foldl_whitenByte_85 m []]
    rw [show List.replicate 1 (85 : Nat) = [85] from rfl]
    simp only [List.foldl_cons, List.foldl_nil, List.nil_append, whitenByte_85_even]
    have : (2 * m + 1) / 2 = m := by omega
    rw [this]

/-- C5: `whiten` reads its input as a contiguous MSB-first bitstream
and processes disjoint consecutive pairs — `(0,1)` emits 0, `(1,0)`
emits 1, `(0,0)`/`(1,1)` emit nothing — packing output bits MSB-first
and discarding a trailing incomplete byte (first conjunct: equality
with the specification-level `whiten_spec`); consequently an all-zero
buffer of any length yields an empty output (second conjunct). -/
theorem whiten_pairwise_correct :
    (∀ data, whiten data = whiten_spec data) ∧
      ∀ n, whiten (List.replicate n 0) = [] :=
  ⟨whiten_eq_spec, whiten_replicate_zero⟩

end Ocelli

namespace Ocelli

theorem mem_gridIndices_lt {len width d idx : Nat} (h : idx ∈ gridIndices len width d) :
    idx < len := by
  rw [gridIndices] at h
  obtain ⟨row, _, hmem⟩ := List.mem_flatMap.mp h
  simpa using List.of_mem_filter hmem

theorem diffBit_gt (c p : Nat) (h : p < c) : diffBit c p = 1 := by
  rw [diffBit, if_pos h, if_neg (by omega)]

theorem flatMap_congr {α β : Type} (l : List α) (f g : α → List β)
    (h : ∀ a ∈ l, f a = g a) : l.flatMap f = l.flatMap g := by
  induction l with
  | nil => rfl
  | cons a t ih =>
      rw [List.flatMap_cons, List.flatMap_cons, h a (by simp),
        ih (fun x hx => h x (by simp [hx]))]

theorem length_flatMap_const {α β : Type} (l : List α) (f : α → List β) (k : Nat)
    (h : ∀ a ∈ l, (f a).length = k) : (l.flatMap f).length = l.length * k := by
  induction l with
  | nil => simp
  | cons a t ih =>
      rw [List.flatMap_cons, List.length_append, h a (by simp),
        ih (fun x hx => h x (by simp [hx])), List.length_cons]
      ring

/-- One interior row of the 1920-wide grid at stride 30 samples 58
column indices. -/
theorem stepRange_row_1920 (row : Nat) :
    stepRange (row * 1920 + 100) ((row + 1) * 1920 - 100) 30 =
      (List.range 58).map (fun i => row * 1920 + 100 + i * 30) := by
  rw [stepRange]
  have hsub : (row + 1) * 1920 - 100 - (row * 1920 + 100) = 1720 := by omega
  rw [hsub]

/-- In the 1920×1080 geometry every sampled index of an interior row is
in bounds, so the `idx < len` filter keeps the whole row. -/
theorem gridIndices_1080 :
    gridIndices 2073600 1920 30 =
      (List.range' 100 880).flatMap
        (fun row => (List.range 58).map (fun i => row * 1920 + 100 + i * 30)) := by
  rw [gridIndices]
  norm_num
  apply flatMap_congr
  intro row hrow
  have hrow' : row < 980 := by
    have := List.mem_range'_1.mp hrow
    omega
  rw [stepRange_row_1920, List.filter_eq_self.mpr]
  intro x hx
  obtain ⟨i, hi, rfl⟩ := List.mem_map.mp hx
  have : i < 58 := List.mem_range.mp hi
  simp only [decide_eq_true_eq]
  omega

theorem gridIndices_1080_length : (gridIndices 2073600 1920 30).length = 51040 := by
  rw [gridIndices_1080, length_flatMap_const _ _ 58 (fun a _ => by simp)]
  simp

/-- C6: two 1920×1080 buffers with `current[i] = previous[i] + 1` at
every grid-sampled index (current strictly greater at every sampled
position) yield, at `width = 1920` and stride 30, a non-empty chunk
consisting entirely of `0xFF` bytes (in fact 6380 of them: 880 interior
rows × 58 samples = 51040 one-bits = 6380 bytes). -/
theorem chop_and_tack_all_ones (current previous : List Nat)
    (hc : current.length = 2073600) (hp : previous.length = 2073600)
    (h : ∀ idx ∈ gridIndices 2073600 1920 30,
      previous.getD idx 0 + 1 = current.getD idx 0) :
    ∃ chunk, chop_and_tack current previous 1920 30 = Except.ok (some chunk) ∧
      chunk ≠ [] ∧ ∀ b ∈ chunk, b = 255 := by
  refine ⟨List.replicate 6380 255, ?_,
    fun hnil => by
      have hl := congrArg List.length hnil
      rw [List.length_replicate, List.length_nil] at hl
      exact absurd hl (by norm_num),
    fun b hb => List.eq_of_mem_replicate hb⟩
  have hone : ∀ b ∈ (gridIndices 2073600 1920 30).map
      (fun idx => diffBit (current.getD idx 0) (previous.getD idx 0)), b = 1 := by
    intro b hb
    obtain ⟨idx, hidx, rfl⟩ := List.mem_map.mp hb
    exact diffBit_gt _ _ (by have := h idx hidx; omega)
  have hmap : (gridIndices 2073600 1920 30).map
      (fun idx => diffBit (current.getD idx 0) (previous.getD idx 0)) =
      List.replicate 51040 1 := by
    rw [List.eq_replicate_of_mem hone, List.length_map, gridIndices_1080_length]
  have h1 : ¬(1920 : Nat) = 0 := by norm_num
  have h2 : ¬((1920 : Nat) ≤ 200 ∨ (2073600 : Nat) / 1920 ≤ 200 ∨
      (2073600 : Nat) ≠ 2073600) := by norm_num
  have h3 : ¬(30 : Nat) = 0 := by norm_num
  simp only [chop_and_tack, hc, hp]
  rw [if_neg h1, if_neg h2, if_neg h3, hmap,
    List.filter_eq_self.mpr (fun a ha => by simp [List.eq_of_mem_replicate ha]),
    bits_to_bytes_replicate_one]

/-- C6 witness: the concrete pair `current = 2073600 × 1`,
`previous = 2073600 × 0` satisfies the hypothesis and yields the
all-`0xFF` chunk. -/
theorem chop_and_tack_all_ones_witness :
    ∃ chunk, chop_and_tack (List.replicate 2073600 1) (List.replicate 2073600 0) 1920 30 =
        Except.ok (some chunk) ∧ chunk ≠ [] ∧ ∀ b ∈ chunk, b = 255 :=
  chop_and_tack_all_ones (List.replicate 2073600 1) (List.replicate 2073600 0)
    (List.length_replicate 2073600 1) (List.length_replicate 2073600 0)
    (fun idx hidx => by
      rw [getD_replicate, getD_replicate, if_pos (mem_gridIndices_lt hidx),
        if_pos (mem_gridIndices_lt hidx)])

end Ocelli

namespace Ocelli

theorem packStep_measure (s : WhitenState) (b : Nat) :
    8 * (packStep s b).out.length + (packStep s b).cnt = 8 * s.out.length + s.cnt + 1 := by
  by_cases h8 : s.cnt + 1 = 8
  · simp [packStep, h8]
    omega
  · simp [packStep, h8]
    omega

theorem pushPair_measure (s : WhitenState) (b1 b2 : Nat) (h : s.cnt < 8) :
    8 * (pushPair s b1 b2).out.length + (pushPair s b1 b2).cnt ≤
      8 * s.out.length + s.cnt + 1 := by
  rw [pushPair_eq_foldl s b1 b2 (by omega), vnPair]
  by_cases h1 : b1 = 0 ∧ b2 = 1
  · simp only [if_pos h1, List.foldl_cons, List.foldl_nil]
    exact le_of_eq (packStep_measure s 0)
  · by_cases h2 : b1 = 1 ∧ b2 = 0
    · simp only [if_neg h1, if_pos h2, List.foldl_cons, List.foldl_nil]
      exact le_of_eq (packStep_measure s 1)
    · simp only [if_neg h1, if_neg h2, List.foldl_nil]
      omega

theorem whitenByte_measure (s : WhitenState) (byte : Nat) (h : s.cnt < 8) :
    8 * (whitenByte s byte).out.length + (whitenByte s byte).cnt ≤
      8 * s.out.length + s.cnt + 4 := by
  rw [show whitenByte s byte = pushPair (pushPair (pushPair (pushPair s
      ((byte >>> (7 - 0)) &&& 1) ((byte >>> (6 - 0)) &&& 1))
      ((byte >>> (7 - 2)) &&& 1) ((byte >>> (6 - 2)) &&& 1))
      ((byte >>> (7 - 4)) &&& 1) ((byte >>> (6 - 4)) &&& 1))
      ((byte >>> (7 - 6)) &&& 1) ((byte >>> (6 - 6)) &&& 1) from rfl]
  have i1 := pushPair_cnt_lt s ((byte >>> (7 - 0)) &&& 1) ((byte >>> (6 - 0)) &&& 1) h
  have m1 := pushPair_measure s ((byte >>> (7 - 0)) &&& 1) ((byte >>> (6 - 0)) &&& 1) h
  have i2 := pushPair_cnt_lt _ ((byte >>> (7 - 2)) &&& 1) ((byte >>> (6 - 2)) &&& 1) i1
  have m2 := pushPair_measure _ ((byte >>> (7 - 2)) &&& 1) ((byte >>> (6 - 2)) &&& 1) i1
  have i3 := pushPair_cnt_lt _ ((byte >>> (7 - 4)) &&& 1) ((byte >>> (6 - 4)) &&& 1) i2
  have m3 := pushPair_measure _ ((byte >>> (7 - 4)) &&& 1) ((byte >>> (6 - 4)) &&& 1) i2
  have m4 := pushPair_measure _ ((byte >>> (7 - 6)) &&& 1) ((byte >>> (6 - 6)) &&& 1) i3
  omega

theorem foldl_whitenByte_measure (data : List Nat) : ∀ (s : WhitenState), s.cnt < 8 →
    8 * (data.foldl whitenByte s).out.length + (data.foldl whitenByte s).cnt ≤
      8 * s.out.length + s.cnt + 4 * data.length := by
  induction data with
  | nil => intro s _; simp
  | cons a t ih =>
      intro s h
      rw [List.foldl_cons]
      have h1 := whitenByte_measure s a h
      have h2 := ih (whitenByte s a) (whitenByte_cnt_lt s a h)
      simp only [List.length_cons]
      omega

theorem whiten_length_le (entropy : List Nat) : (whiten entropy).length ≤ entropy.length := by
  have h := foldl_whitenByte_measure entropy ⟨[], 0, 0⟩ (by norm_num)
  rw [whiten]
  simp only [List.length_nil] at h
  omega

theorem pick_and_flip_length_le (data : List Nat) (low high idx : Nat) :
    (pick_and_flip data low high idx).length ≤ data.length := by
  rw [pick_and_flip, length_bits_to_bytes]
  calc (data.filterMap _).length / 8 ≤ (data.filterMap _).length := Nat.div_le_self _ _
    _ ≤ data.length := List.length_filterMap_le _ _

theorem length_flatMap_le {α β : Type} (l : List α) (f : α → List β) (k : Nat)
    (h : ∀ a ∈ l, (f a).length ≤ k) : (l.flatMap f).length ≤ l.length * k := by
  induction l with
  | nil => simp
  | cons a t ih =>
      rw [List.flatMap_cons, List.length_append, List.length_cons, Nat.succ_mul]
      have ha := h a (by simp)
      have ht := ih (fun x hx => h x (by simp [hx]))
      omega

theorem gridIndices_length_le (len width d : Nat) (hw : 200 < width) (hd : d ≠ 0) :
    (gridIndices len width d).length ≤ (len / width - 200) * (width - 200) := by
  rw [gridIndices]
  refine Nat.le_trans (length_flatMap_le _ _ (width - 200) ?_) (by rw [List.length_range'])
  intro row _
  refine Nat.le_trans (List.length_filter_le _ _) ?_
  rw [stepRange, List.length_map, List.length_range]
  have hsub : (row + 1) * width - 100 - (row * width + 100) = width - 200 := by
    have : (row + 1) * width = row * width + width := by ring
    omega
  rw [hsub]
  obtain ⟨e, rfl⟩ : ∃ e, d = e + 1 := ⟨d - 1, by omega⟩
  have hx : 1 ≤ width - 200 := by omega
  have hlt : (width - 200 + (e + 1) - 1) / (e + 1) < (width - 200) + 1 := by
    rw [Nat.div_lt_iff_lt_mul (Nat.succ_pos e)]
    have hexp : (width - 200 + 1) * (e + 1) = (width - 200) * e + (width - 200) + e + 1 := by
      ring
    rw [hexp]
    have : 0 ≤ (width - 200) * e := Nat.zero_le _
    omega
  omega

theorem chop_and_tack_length_le (current previous : List Nat) (width d : Nat)
    (chunk : List Nat)
    (h : chop_and_tack current previous width d = Except.ok (some chunk)) :
    chunk.length ≤ current.length := by
  by_cases hw0 : width = 0
  · simp [chop_and_tack, hw0] at h
  · by_cases hg : width ≤ 200 ∨ current.length / width ≤ 200 ∨
        current.length ≠ previous.length
    · simp only [chop_and_tack, if_neg hw0, if_pos hg] at h
      simp at h
    · by_cases hd : d = 0
      · simp only [chop_and_tack, if_neg hw0, if_neg hg, if_pos hd] at h
        simp at h
      · simp only [chop_and_tack, if_neg hw0, if_neg hg, if_neg hd] at h
        have hchunk : bits_to_bytes (((gridIndices current.length width d).map
            (fun idx => diffBit (current.getD idx 0) (previous.getD idx 0))).filter
            (fun bit => decide (bit ≤ 1))) = chunk := by
          simpa using h
        push_neg at hg
        obtain ⟨hw, hh, _⟩ := hg
        rw [← hchunk, length_bits_to_bytes]
        refine Nat.le_trans (Nat.div_le_self _ _) ?_
        refine Nat.le_trans (List.length_filter_le _ _) ?_
        rw [List.length_map]
        refine Nat.le_trans (gridIndices_length_le current.length width d (by omega) hd) ?_
        refine Nat.le_trans (Nat.mul_le_mul (Nat.sub_le _ _) (Nat.sub_le _ _)) ?_
        exact Nat.div_mul_le_self current.length width

/-- C7: no packing operation expands data — the byte output of
`whiten` and `pick_and_flip` is never longer than the input buffer,
and whenever `chop_and_tack` produces a chunk, the chunk is never
longer than the current-frame buffer, so an output buffer sized to the
input length always suffices. -/
theorem no_packing_expansion :
    (∀ entropy : List Nat, (whiten entropy).length ≤ entropy.length) ∧
      (∀ (data : List Nat) (low high idx : Nat),
        (pick_and_flip data low high idx).length ≤ data.length) ∧
      ∀ (current previous : List Nat) (width d : Nat) (chunk : List Nat),
        chop_and_tack current previous width d = Except.ok (some chunk) →
        chunk.length ≤ current.length :=
  ⟨whiten_length_le, pick_and_flip_length_le, chop_and_tack_length_le⟩

/-- C7 witness: concrete instances of all three bounds, including a
`chop_and_tack` call that actually produces a chunk. -/
theorem no_packing_expansion_witness :
    (whiten [85]).length ≤ ([85] : List Nat).length ∧
      (pick_and_flip [3, 7] 0 255 1).length ≤ ([3, 7] : List Nat).length ∧
      ([] : List Nat).length ≤ (List.replicate 42009 0).length :=
  ⟨no_packing_expansion.1 [85],
   no_packing_expansion.2.1 [3, 7] 0 255 1,
   no_packing_expansion.2.2 (List.replicate 42009 0) (List.replicate 42009 1) 209 1 []
     chop_eval_lt⟩

end Ocelli

namespace Ocelli

theorem shannon_nil : shannon [] = 0 := by simp [shannon]

theorem shannon_perm (l1 l2 : List Nat) (hp : l1.Perm l2) : shannon l1 = shannon l2 := by
  by_cases h0 : l2.length = 0
  · rw [shannon, shannon, hp.length_eq, if_pos h0, if_pos h0]
  · rw [shannon, shannon, hp.length_eq, if_neg h0, if_neg h0,
      List.toFinset_eq_of_perm _ _ hp]
    exact Finset.sum_congr rfl (fun b _ => by rw [hp.count_eq])

theorem shannon_replicate (b n : Nat) (h : 0 < n) : shannon (List.replicate n b) = 0 := by
  rw [shannon, if_neg (by simp; omega), List.toFinset_replicate_of_ne_zero (by omega),
    Finset.sum_singleton, List.length_replicate]
  have hc : (List.replicate n b).count b = n := by simp
  rw [hc, div_self (by exact_mod_cast Nat.pos_iff_ne_zero.mp h), Real.logb_one]
  ring

theorem shannon_range256 : shannon (List.range 256) = 8 := by
  have htf : (List.range 256).toFinset = Finset.range 256 := by
    ext x
    simp
  rw [shannon, if_neg (by simp), htf, List.length_range]
  have hterm : ∀ b ∈ Finset.range 256,
      (0 - (((List.range 256).count b : ℝ) / ((256 : Nat) : ℝ)) *
        Real.logb 2 (((List.range 256).count b : ℝ) / ((256 : Nat) : ℝ))) =
      (1 : ℝ) / 32 := by
    intro b hb
    have hc : (List.range 256).count b = 1 :=
      List.count_eq_one_of_mem (List.nodup_range _)
        (List.mem_range.mpr (Finset.mem_range.mp hb))
    rw [hc]
    have h1 : ((1 : Nat) : ℝ) / ((256 : Nat) : ℝ) = (256 : ℝ)⁻¹ := by norm_num
    rw [h1, Real.logb_inv, show (256:ℝ) = 2 ^ (8:ℕ) by norm_num, Real.logb_pow,
      Real.logb_self_eq_one (by norm_num)]
    norm_num
  rw [Finset.sum_congr rfl hterm, Finset.sum_const, Finset.card_range]
  norm_num

theorem shannon_nonneg (data : List Nat) : 0 ≤ shannon data := by
  by_cases h0 : data.length = 0
  · rw [shannon, if_pos h0]
  · rw [shannon, if_neg h0]
    refine Finset.sum_nonneg (fun b hb => ?_)
    have hmem : b ∈ data := List.mem_toFinset.mp hb
    have hcpos : 0 < data.count b := List.count_pos_iff.mpr hmem
    have hlen : 0 < data.length := Nat.pos_of_ne_zero h0
    have hp0 : (0 : ℝ) < (data.count b : ℝ) / (data.length : ℝ) := by positivity
    have hp1 : (data.count b : ℝ) / (data.length : ℝ) ≤ 1 := by
      rw [div_le_one (by positivity)]
      exact_mod_cast List.count_le_length _ _
    have hlog : Real.logb 2 ((data.count b : ℝ) / (data.length : ℝ)) ≤ 0 :=
      Real.logb_nonpos (by norm_num) (le_of_lt hp0) hp1
    have := mul_nonpos_of_nonneg_of_nonpos (le_of_lt hp0) hlog
    linarith

set_option maxHeartbeats 1000000 in
theorem shannon_le_eight (data : List Nat) (hdata : ∀ b ∈ data, b < 256) :
    shannon data ≤ 8 := by
  by_cases h0 : data.length = 0
  · rw [shannon, if_pos h0]
    norm_num
  · rw [shannon, if_neg h0]
    have hlen : 0 < data.length := Nat.pos_of_ne_zero h0
    have hnpos : (0 : ℝ) < (data.length : ℝ) := by exact_mod_cast hlen
    set S := data.toFinset with hS
    set k := S.card with hk
    have hk0 : 0 < k := by
      rw [hk, Finset.card_pos]
      obtain ⟨a, ha⟩ := List.exists_mem_of_length_pos hlen
      exact ⟨a, List.mem_toFinset.mpr ha⟩
    have hkR : (0 : ℝ) < (k : ℝ) := by exact_mod_cast hk0
    have hk256 : k ≤ 256 := by
      rw [hk]
      have hsub : S ⊆ Finset.range 256 := fun b hb =>
        Finset.mem_range.mpr (hdata b (List.mem_toFinset.mp hb))
      simpa using Finset.card_le_card hsub
    have hppos : ∀ b ∈ S, (0 : ℝ) < (data.count b : ℝ) / (data.length : ℝ) := by
      intro b hb
      have : 0 < data.count b := List.count_pos_iff.mpr (List.mem_toFinset.mp hb)
      positivity
    have hsum1 : ∑ b ∈ S, (data.count b : ℝ) / (data.length : ℝ) = 1 := by
      rw [← Finset.sum_div]
      rw [show ∑ b ∈ S, (data.count b : ℝ) = ((∑ b ∈ S, data.count b : Nat) : ℝ) by
        push_cast
        ring]
      rw [List.sum_toFinset_count_eq_length data]
      exact div_self (ne_of_gt hnpos)
    have hlog2 : (0 : ℝ) < Real.log 2 := Real.log_pos (by norm_num)
    -- rewrite each entropy term through the natural logarithm
    have hterm : ∀ b ∈ S,
        (0 - ((data.count b : ℝ) / (data.length : ℝ)) *
          Real.logb 2 ((data.count b : ℝ) / (data.length : ℝ))) =
        ((data.count b : ℝ) / (data.length : ℝ)) *
          Real.log (((data.count b : ℝ) / (data.length : ℝ))⁻¹) / Real.log 2 := by
      intro b hb
      rw [Real.logb, Real.log_inv]
      field_simp
    rw [Finset.sum_congr rfl hterm, ← Finset.sum_div]
    -- Gibbs: the natural-log entropy is at most log k
    have hgibbs : ∑ b ∈ S, ((data.count b : ℝ) / (data.length : ℝ)) *
        Real.log (((data.count b : ℝ) / (data.length : ℝ))⁻¹) ≤ Real.log (k : ℝ) := by
      have hpt : ∀ b ∈ S, ((data.count b : ℝ) / (data.length : ℝ)) *
          Real.log (((data.count b : ℝ) / (data.length : ℝ))⁻¹) ≤
          (k : ℝ)⁻¹ - (data.count b : ℝ) / (data.length : ℝ) +
            ((data.count b : ℝ) / (data.length : ℝ)) * Real.log (k : ℝ) := by
        intro b hb
        have hp := hppos b hb
        set p := (data.count b : ℝ) / (data.length : ℝ) with hpdef
        have hinv : p⁻¹ = ((k : ℝ) * p)⁻¹ * (k : ℝ) := by
          field_simp
        have hlogsplit : Real.log (p⁻¹) =
            Real.log (((k : ℝ) * p)⁻¹) + Real.log (k : ℝ) := by
          rw [hinv, Real.log_mul (by positivity) (ne_of_gt hkR)]
        have hle : Real.log (((k : ℝ) * p)⁻¹) ≤ ((k : ℝ) * p)⁻¹ - 1 :=
          Real.log_le_sub_one_of_pos (by positivity)
        have hmul : p * Real.log (((k : ℝ) * p)⁻¹) ≤ p * (((k : ℝ) * p)⁻¹ - 1) :=
          mul_le_mul_of_nonneg_left hle (le_of_lt hp)
        have hsimp : p * (((k : ℝ) * p)⁻¹ - 1) = (k : ℝ)⁻¹ - p := by
          rw [mul_sub, mul_inv, mul_one,
            show p * ((k : ℝ)⁻¹ * p⁻¹) = (k : ℝ)⁻¹ * (p * p⁻¹) by ring,
            mul_inv_cancel₀ (ne_of_gt hp), mul_one]
        calc p * Real.log (p⁻¹)
            = p * Real.log (((k : ℝ) * p)⁻¹) + p * Real.log (k : ℝ) := by
              rw [hlogsplit]; ring
          _ ≤ ((k : ℝ)⁻¹ - p) + p * Real.log (k : ℝ) := by
              rw [← hsimp]; linarith
          _ = (k : ℝ)⁻¹ - p + p * Real.log (k : ℝ) := by ring
      calc ∑ b ∈ S, ((data.count b : ℝ) / (data.length : ℝ)) *
            Real.log (((data.count b : ℝ) / (data.length : ℝ))⁻¹)
          ≤ ∑ b ∈ S, ((k : ℝ)⁻¹ - (data.count b : ℝ) / (data.length : ℝ) +
              ((data.count b : ℝ) / (data.length : ℝ)) * Real.log (k : ℝ)) :=
            Finset.sum_le_sum hpt
        _ = (k : ℝ) * (k : ℝ)⁻¹ - 1 + Real.log (k : ℝ) := by
            rw [Finset.sum_add_distrib, Finset.sum_sub_distrib, Finset.sum_const,
              ← Finset.sum_mul, hsum1, ← hk, nsmul_eq_mul]
            ring
        _ = Real.log (k : ℝ) := by
            rw [mul_inv_cancel₀ (ne_of_gt hkR)]
            ring
    have hmono : (∑ b ∈ S, ((data.count b : ℝ) / (data.length : ℝ)) *
        Real.log (((data.count b : ℝ) / (data.length : ℝ))⁻¹)) / Real.log 2 ≤
        Real.log (k : ℝ) / Real.log 2 :=
      (div_le_div_iff_of_pos_right hlog2).mpr hgibbs
    refine le_trans hmono ?_
    -- log k / log 2 = logb 2 k ≤ logb 2 256 = 8
    have hlast : Real.log (k : ℝ) / Real.log 2 ≤ Real.log 256 / Real.log 2 := by
      have : Real.log (k : ℝ) ≤ Real.log 256 := by
        apply Real.log_le_log hkR
        exact_mod_cast hk256
      exact (div_le_div_iff_of_pos_right hlog2).mpr this
    refine le_trans hlast ?_
    rw [show (256:ℝ) = 2 ^ (8:ℕ) by norm_num, Real.log_pow]
    rw [mul_div_assoc, div_self (ne_of_gt hlog2)]
    norm_num

/-- C8: the Shannon estimator returns exactly 0 for empty input;
exactly 0 for every non-empty constant buffer; a value within `1e-9`
of 8 (here: exactly 8) for any buffer containing each of the 256 byte
values exactly once; and for every byte buffer (entries < 256) its
result lies in `[0, 8]`.  (`f64` arithmetic is modelled by `ℝ`.) -/
theorem shannon_estimator_props :
    shannon [] = 0 ∧
      (∀ b n, 0 < n → shannon (List.replicate n b) = 0) ∧
      (∀ data : List Nat, data.Perm (List.range 256) →
        |shannon data - 8| ≤ 1 / 1000000000) ∧
      ∀ data : List Nat, (∀ b ∈ data, b < 256) →
        0 ≤ shannon data ∧ shannon data ≤ 8 := by
  refine ⟨shannon_nil, fun b n hn => shannon_replicate b n hn, fun data hp => ?_,
    fun data hd => ⟨shannon_nonneg data, shannon_le_eight data hd⟩⟩
  rw [shannon_perm data (List.range 256) hp, shannon_range256]
  norm_num

/-- C8 witness: the four properties at concrete inputs — the empty
buffer, three bytes `7`, the buffer `0,1,…,255`, and the pair `0,1`. -/
theorem shannon_estimator_props_witness :
    shannon [] = 0 ∧ shannon (List.replicate 3 7) = 0 ∧
      |shannon (List.range 256) - 8| ≤ 1 / 1000000000 ∧
      (0 ≤ shannon [0, 1] ∧ shannon [0, 1] ≤ 8) :=
  ⟨shannon_estimator_props.1,
   shannon_estimator_props.2.1 7 3 (by norm_num),
   shannon_estimator_props.2.2.1 (List.range 256) (List.Perm.refl _),
   shannon_estimator_props.2.2.2 [0, 1] (by decide)⟩

/-- C10: the Shannon estimator is permutation-invariant — its value
depends only on the multiset of byte values (the count of every value
and the total length are permutation-invariant, and the sum over the
set of distinct values does not depend on any ordering). -/
theorem shannon_permutation_invariant (l1 l2 : List Nat) (hp : l1.Perm l2) :
    shannon l1 = shannon l2 := shannon_perm l1 l2 hp

/-- C10 witness: a concrete transposition. -/
theorem shannon_permutation_invariant_witness : shannon [1, 2] = shannon [2, 1] :=
  shannon_permutation_invariant [1, 2] [2, 1] (List.Perm.swap 2 1 [])

end Ocelli

namespace FFI

/-- lib.rs `Ocelli::chop_and_tack` (lines 18–51), the older in-crate
variant called by the FFI wrapper.  Differences from core.rs: it
*panics* on bad geometry instead of returning `None`
(`Except.error` here), it has no length-equality guard (the per-index
filter checks both buffers instead), and `end_row = height - 100` is
an unchecked `usize` subtraction, so `height < 100` is an arithmetic
underflow (a panic in debug profile; in release the loop bound wraps
around — modelled as an error as well, since no meaningful value is
produced).  `width = 0` panics on `len/width` and `step_by(0)` panics,
as in the core version. -/
def libChopAndTack (current previous : List Nat) (width minimum_distance : Nat) :
    Except String (List Nat) :=
  if width = 0 then Except.error "attempt to divide by zero"
  else
    let height := current.length / width
    if height < 100 then Except.error "usize underflow computing end_row"
    else if 100 ≥ height - 100 ∨ width ≤ 200 then
      Except.error "Resolution is too small to apply the grid selection with the given offset."
    else if minimum_distance = 0 then Except.error "step_by called with step 0"
    else
      Except.ok (Ocelli.bits_to_bytes
        ((((List.range' 100 (height - 200)).flatMap (fun row =>
            (Ocelli.stepRange (row * width + 100) ((row + 1) * width - 100)
                minimum_distance).filter
              (fun idx => decide (idx < current.length ∧ idx < previous.length)))).map
            (fun idx => Ocelli.diffBit (current.getD idx 0) (previous.getD idx 0))).filter
          (fun bit => decide (bit ≤ 1))))

/-- lib.rs `Ocelli::shannon` (lines 74–89): identical to the core.rs
version except that it lacks the explicit empty-input early return;
for empty input the frequency map is empty and the fold returns 0
anyway (no division is ever executed). -/
noncomputable def shannonLib (data : List Nat) : ℝ :=
  ∑ b ∈ data.toFinset,
    (0 - ((data.count b : ℝ) / (data.length : ℝ)) *
      Real.logb 2 ((data.count b : ℝ) / (data.length : ℝ)))

/-- lib.rs `extern "C" fn chop_and_tack` (lines 139–161).  Every input
pointer goes straight into `slice::from_raw_parts` with no validation,
and the result is written through `result_ptr` with no capacity check.
A pointer argument is modelled as `Option (List Nat)` (`none` = null or
otherwise invalid, `some buf` = valid pointer whose paired length
argument describes `buf`); the caller-supplied output region is an
`Option Nat` capacity.  A `none` result marks undefined behaviour (the
code dereferenced an invalid pointer or wrote past the output region);
`some (Except.error e)` is a panic of the inner call; and
`some (Except.ok (bytes, n))` is a normal return that wrote `bytes`
and set `*result_len = n`. -/
def ffiChopAndTack (currentPtr previousPtr : Option (List Nat))
    (width minimum_distance : Nat) (resultPtr : Option Nat) :
    Option (Except String (List Nat × Nat)) :=
  match currentPtr, previousPtr with
  | some current, some previous =>
    match libChopAndTack current previous width minimum_distance with
    | Except.error e => some (Except.error e)
    | Except.ok result =>
      match resultPtr with
      | some capacity =>
          if result.length ≤ capacity then some (Except.ok (result, result.length))
          else none
      | none => none
  | _, _ => none

/-- lib.rs `extern "C" fn pick_and_flip` (lines 163–183); the inner
`Ocelli::pick_and_flip` of lib.rs is textually identical to the
core.rs version embedded as `Ocelli.pick_and_flip`.  Pointer handling
as in `ffiChopAndTack`: no validation whatsoever. -/
def ffiPickAndFlip (dataPtr : Option (List Nat)) (low high idx : Nat)
    (resultPtr : Option Nat) : Option (List Nat × Nat) :=
  match dataPtr with
  | some data =>
    let result := Ocelli.pick_and_flip data low high idx
    match resultPtr with
    | some capacity =>
        if result.length ≤ capacity then some (result, result.length) else none
    | none => none
  | none => none

/-- lib.rs `extern "C" fn whiten` (lines 194–211); the inner
`Ocelli::whiten` of lib.rs is textually identical to the core.rs
version embedded as `Ocelli.whiten`.  No pointer validation. -/
def ffiWhiten (entropyPtr : Option (List Nat)) (resultPtr : Option Nat) :
    Option (List Nat × Nat) :=
  match entropyPtr with
  | some entropy =>
    let result := Ocelli.whiten entropy
    match resultPtr with
    | some capacity =>
        if result.length ≤ capacity then some (result, result.length) else none
    | none => none
  | none => none

/-- lib.rs `extern "C" fn shannon` (lines 186–192).  No pointer
validation before `slice::from_raw_parts`. -/
noncomputable def ffiShannon (dataPtr : Option (List Nat)) : Option ℝ :=
  match dataPtr with
  | some data => some (shannonLib data)
  | none => none

/-- lib.rs `extern "C" fn is_covered` (lines 213–219).  No pointer
validation before `slice::from_raw_parts`. -/
def ffiIsCovered (grayscalePtr : Option (List Nat)) (threshold : Nat) : Option Bool :=
  match grayscalePtr with
  | some grayscale => some (Ocelli.is_covered grayscale threshold)
  | none => none

end FFI

namespace Ocelli

/-- C9: the claim says every FFI entry point rejects null or invalid
pointers and malformed lengths by reporting zero bytes written or a
safe default, never dereferencing invalid memory.  The code (lib.rs)
contains no pointer check at all: every entry point passes its raw
pointers to `slice::from_raw_parts` unconditionally, so a null data
pointer with a nonzero length is dereferenced — undefined behaviour
(`none` in the model) — instead of any zero-output rejection.  This
theorem evaluates all five modelled entry points at a null data
pointer. -/
theorem ffi_null_pointer_ub :
    FFI.ffiChopAndTack none (some [1, 2, 3]) 1920 30 (some 100) = none ∧
      FFI.ffiPickAndFlip none 0 255 1 (some 8) = none ∧
      FFI.ffiWhiten none (some 8) = none ∧
      FFI.ffiShannon none = none ∧
      FFI.ffiIsCovered none 50 = none :=
  ⟨rfl, rfl, rfl, rfl, rfl⟩

end Ocelli

section Sanity

example : Ocelli.bits_to_bytes [1, 1, 1, 1, 1, 1, 1, 1, 0] = [255] := by decide
example : Ocelli.bits_to_bytes [0, 0, 0, 0, 0, 1, 1, 1] = [7] := by decide
example : Ocelli.diffBit 5 4 = 1 ∧ Ocelli.diffBit 4 4 = 0 ∧ Ocelli.diffBit 3 4 = 255 := by decide
example : Ocelli.whiten [85, 85] = [0] := by decide
example : Ocelli.whiten [170, 170] = [255] := by decide
example : Ocelli.whiten [0, 0, 0] = [] := by decide
example : Ocelli.pick_and_flip [5, 5, 5, 5, 5, 5, 5, 5] 5 5 1 = [255] := by decide
example : Ocelli.stepRange 0 10 3 = [0, 3, 6, 9] := by decide
example : Ocelli.is_covered [1, 1, 2] 2 = false := by decide

end Sanity
